import Mathlib

/-!
Verification of the morphological post-processing core of this repository
(`src/utils/morph_analyzer.py` and the interactive decision cache of
`src/scripts/preprocessing/03_process_morph.py`).

Strings are embedded as lists of characters (`Str`), Python float
confidences as rationals, and Python tuples of 0 to 4 fields as the
inductive `Token`.  Code that can raise an exception (an out-of-range
tuple access) is embedded with `Option`, `none` marking the raised
error.
-/

/-- Sentences, surface forms and tags are lists of characters. -/
abbrev Str := List Char

/-- Literal helper: the character list of a string literal. -/
def str (s : String) : Str := s.data

/-- A tagger token: a tuple of 0 to 4 fields
`(surface, tag, confidence, out-of-vocabulary)`, mirroring the Python
tuples `(morph, tag, prob, oov)` which may arrive truncated. -/
inductive Token where
  | t0 : Token
  | t1 (morph : Str) : Token
  | t2 (morph : Str) (tag : Str) : Token
  | t3 (morph : Str) (tag : Str) (prob : ℚ) : Token
  | t4 (morph : Str) (tag : Str) (prob : ℚ) (oov : ℤ) : Token
  deriving DecidableEq, Inhabited

namespace Token

/-- `len(token)`: the number of fields of the tuple. -/
def len : Token → ℕ
  | .t0 => 0
  | .t1 _ => 1
  | .t2 _ _ => 2
  | .t3 _ _ _ => 3
  | .t4 _ _ _ _ => 4

/-- `token[0] if token else ''`: the surface form, empty for the empty
tuple (as in `_token_positions`). -/
def morph : Token → Str
  | .t0 => []
  | .t1 m => m
  | .t2 m _ => m
  | .t3 m _ _ => m
  | .t4 m _ _ _ => m

/-- `token[1]` when the index is in range. -/
def tag? : Token → Option Str
  | .t2 _ tg => some tg
  | .t3 _ tg _ => some tg
  | .t4 _ tg _ _ => some tg
  | _ => none

/-- `token[1]`, defaulted to the empty string; only used where the
source has already checked `len(token) >= 2`. -/
def tagD (t : Token) : Str := (t.tag?).getD []

end Token

/-- First index `i ≥ start` at which `pat` occurs in `s` as a
contiguous substring: Python `s.find(pat, start)` for non-empty `pat`
(`none` embeds the return value `-1`). -/
def findFrom (s pat : Str) (start : ℕ) : Option ℕ :=
  (List.range (s.length + 1)).find? (fun i => decide (start ≤ i) && pat.isPrefixOf (s.drop i))

/-- `MorphAnalyzer._token_positions`, cursor-threaded: for each token
search its surface from the cursor, fall back to a search from the
beginning, and emit a zero-width pair at the cursor when unlocatable. -/
def token_positions_from (s : Str) : ℕ → List Token → List (ℕ × ℕ)
  | _, [] => []
  | c, t :: ts =>
    let m := t.morph
    if m = [] then (c, c) :: token_positions_from s c ts
    else
      match findFrom s m c with
      | some i => (i, i + m.length) :: token_positions_from s (i + m.length) ts
      | none =>
        match findFrom s m 0 with
        | some i => (i, i + m.length) :: token_positions_from s (i + m.length) ts
        | none => (c, c) :: token_positions_from s c ts

/-- `MorphAnalyzer._token_positions(sentence, tokens)`. -/
def token_positions (s : Str) (ts : List Token) : List (ℕ × ℕ) :=
  token_positions_from s 0 ts

theorem token_positions_from_length (s : Str) :
    ∀ (c : ℕ) (ts : List Token), (token_positions_from s c ts).length = ts.length := by
  intro c ts
  induction ts generalizing c with
  | nil => rfl
  | cons t ts ih =>
    simp only [token_positions_from]
    split
    · simp [ih]
    · split
      · simp [ih]
      · split
        · simp [ih]
        · simp [ih]

/-! ## Tag refiner (`MorphAnalyzer._refine_tokens`) -/

/-- The interactive refinement callback
`callback(token, tokens, i, sentence)`: returns a decision string or
`None`. -/
abbrev Callback := Token → List Token → ℕ → Str → Option Str

/-- The `tokens[i+1]` lookahead of the ETN rule: true when a next token
exists, has at least 2 fields, and its tag starts with `J`. -/
def josaFollows (tokens : List Token) (i : ℕ) : Bool :=
  match tokens.get? (i + 1) with
  | some nt => decide (2 ≤ nt.len) && (str "J").isPrefixOf nt.tagD
  | none => false

/-- The end-of-sentence scan of the EC rule over the remaining tokens:
walks `tokens[j][1]` until a tag not starting with `S` is met.
Accessing field 1 of a token with fewer than 2 fields raises
`IndexError` in the source; this is embedded as `none`. -/
def ecScanFrom : List Token → Option Bool
  | [] => some true
  | t :: rest =>
    match t.tag? with
    | none => none
    | some tg => if (str "S").isPrefixOf tg then ecScanFrom rest else some false

/-- `for j in range(start, len(tokens))` of the EC rule. -/
def ecScan (tokens : List Token) (start : ℕ) : Option Bool :=
  ecScanFrom (tokens.drop start)

/-- Surfaces of the ETN nominalizer rule. -/
def etnMorphs : List Str := [['ㅁ'], ['음'], ['기'], ['긔']]

/-- Surfaces force-retagged to EF at confidence ≤ 0.9. -/
def forceEfMorphs : List Str := [['긔'], ['노'], ['나'], ['슨'], ['임']]

/-- `if decision: new_tag = decision` — a `None` or empty-string
decision leaves the tag unchanged. -/
def applyDecision (d : Option Str) (fallback : Str) : Str :=
  match d with
  | some dd => if dd = [] then fallback else dd
  | none => fallback

/-- The body of `_refine_tokens` for a token with at least 3 fields
(surface `m`, tag `tg`, confidence `p`, OOV `o`, original tuple `t`).
Rules in source order: the ETN nominalizer rule, the sentence-final EC
rule (whose scan may raise), the low-confidence force-EF rule, then the
interactive escalations.  Returns the refined tuple: a fresh 4-tuple
when the tag changed, the original tuple otherwise. -/
def refineCore (cb : Option Callback) (s : Str) (all : List Token) (i : ℕ)
    (m : Str) (tg : Str) (p : ℚ) (o : ℤ) (t : Token) : Option Token :=
  let tag1 := if tg = str "ETN" && decide (m ∈ etnMorphs) && !josaFollows all i then str "EF"
    else tg
  (if tg = str "EC" then ecScan all (i + 1) else some false).bind fun isLast =>
    let tag2 := if isLast then str "ECF" else tag1
    let tag3 := if decide (m ∈ forceEfMorphs) && decide (p ≤ 9/10) then str "EF" else tag2
    let tag4 :=
      match cb with
      | none => tag3
      | some f =>
        if tag3 = str "EC" && decide (p ≤ 92/100) then applyDecision (f t all i s) tag3
        else if tag3 = str "ETN" && (m = ['ㅁ'] || m = ['음']) then applyDecision (f t all i s) tag3
        else if m = ['임'] then applyDecision (f t all i s) tag3
        else tag3
    some (if tag4 ≠ tg then Token.t4 m tag4 p o else t)

/-- One step of `_refine_tokens`: tokens with fewer than 3 fields are
appended unmodified; otherwise `refineCore` runs with OOV defaulted to
0 when the 4th field is absent. -/
def refineOne (cb : Option Callback) (s : Str) (all : List Token) (i : ℕ) :
    Token → Option Token
  | .t3 m tg p => refineCore cb s all i m tg p 0 (.t3 m tg p)
  | .t4 m tg p o => refineCore cb s all i m tg p o (.t4 m tg p o)
  | t => some t

/-- The indexed loop of `_refine_tokens`; lookahead rules read the
original token list `all`. -/
def refineGo (cb : Option Callback) (s : Str) (all : List Token) :
    ℕ → List Token → Option (List Token)
  | _, [] => some []
  | i, t :: rest => do
    let t' ← refineOne cb s all i t
    let rest' ← refineGo cb s all (i + 1) rest
    pure (t' :: rest')

/-- `MorphAnalyzer._refine_tokens(tokens, sentence, callback)`;
`none` embeds an uncaught `IndexError`. -/
def refine_tokens (cb : Option Callback) (s : Str) (ts : List Token) : Option (List Token) :=
  refineGo cb s ts 0 ts

/-! ## Ending extractor (`MorphAnalyzer.extract_final_endings`) -/

/-- `FINAL_ENDING_TAGS = {'EF', 'ECF'}`. -/
def finalEndingTags : List Str := [str "EF", str "ECF"]

/-- Glue predicate of the extractor's lookahead:
`next_tag.startswith('J') or next_tag == 'EP'`. -/
def isJorEP (t : Token) : Bool := (str "J").isPrefixOf t.tagD || t.tagD = str "EP"

/-- The lookahead loop of `extract_final_endings`: starting after a
final-ending token, skip tokens with fewer than 2 fields, append J/EP
tagged tokens, and stop at the first well-formed other token.  Returns
the absorbed tokens and the list from which the outer scan resumes
(after the last absorbed token, or the unconsumed tail when nothing was
absorbed). -/
def absorbJEP : List Token → List Token × List Token
  | [] => ([], [])
  | t :: ts =>
    if t.len < 2 then
      let r := absorbJEP ts
      if r.1.isEmpty then ([], t :: ts) else r
    else if isJorEP t then
      let r := absorbJEP ts
      (t :: r.1, r.2)
    else ([], t :: ts)

theorem absorbJEP_snd_length : ∀ ts : List Token, (absorbJEP ts).2.length ≤ ts.length := by
  intro ts
  induction ts with
  | nil => simp [absorbJEP]
  | cons t ts ih =>
    simp only [absorbJEP]
    split
    · split
      · simp
      · simpa using Nat.le_succ_of_le ih
    · split
      · simpa using Nat.le_succ_of_le ih
      · simp

/-- The walk of `extract_final_endings`, its outer scan and inner
lookahead embedded as one pass with an `absorbing` flag (`true` inside
the lookahead after a final-ending token).  Tokens with fewer than 2
fields are skipped in both modes (in the source, ones the lookahead
skipped before stopping are rescanned by the outer loop, which also
skips them); in the lookahead, J/EP tokens are collected and the first
well-formed other token ends it and is handled by the outer scan.  A
well-formed EF/ECF token of the outer scan is collected and starts a
lookahead. -/
def extractGo : List Token → Bool → List Token
  | [], _ => []
  | t :: ts, absorbing =>
    if t.len < 2 then extractGo ts absorbing
    else if absorbing && isJorEP t then t :: extractGo ts true
    else if t.tagD ∈ finalEndingTags then t :: extractGo ts true
    else extractGo ts false

/-- `MorphAnalyzer.extract_final_endings(tokens)`: collects every
EF/ECF token together with the J/EP tokens its lookahead absorbs. -/
def extract_final_endings (tokens : List Token) : List Token :=
  extractGo tokens false

/-- The same walk, grouping each final-ending token with its absorbed
tokens into one cluster; `cur` is the cluster being built during a
lookahead. -/
def extractClustersGo : List Token → Bool → List Token → List (List Token)
  | [], absorbing, cur => if absorbing then [cur] else []
  | t :: ts, absorbing, cur =>
    if t.len < 2 then extractClustersGo ts absorbing cur
    else if absorbing && isJorEP t then extractClustersGo ts true (cur ++ [t])
    else
      let pre := if absorbing then [cur] else []
      if t.tagD ∈ finalEndingTags then pre ++ extractClustersGo ts true [t]
      else pre ++ extractClustersGo ts false []

/-- The ending clusters of `extract_final_endings`. -/
def extractClusters (tokens : List Token) : List (List Token) :=
  extractClustersGo tokens false []

/-! ## Sentence segmenter (`MorphAnalyzer.segment_sentence_by_endings`) -/

/-- A token paired with its `(start, end)` position. -/
abbrev PTok := Token × ℕ × ℕ

/-- `SPLIT_ENDING_TAGS = {'EF'}`. -/
def splitEndingTags : List Str := [str "EF"]

/-- Glue predicate of the segmenter's lookahead:
`next_tag.startswith('J') or next_tag == 'EP' or next_tag.startswith('S')`. -/
def isSegGlue (t : Token) : Bool :=
  (str "J").isPrefixOf t.tagD || t.tagD = str "EP" || (str "S").isPrefixOf t.tagD

/-- The lookahead loop after an EF token in
`segment_sentence_by_endings`: skip tokens with fewer than 2 fields,
absorb glue tokens, break at the first well-formed other token.
Returns the absorbed tokens and the list at the break point from which
the outer loop resumes (`idx = lookahead`). -/
def segAbsorb : List PTok → List PTok × List PTok
  | [] => ([], [])
  | pt :: rest =>
    if pt.1.len < 2 then segAbsorb rest
    else if isSegGlue pt.1 then
      let r := segAbsorb rest
      (pt :: r.1, r.2)
    else ([], pt :: rest)

theorem segAbsorb_snd_length : ∀ l : List PTok, (segAbsorb l).2.length ≤ l.length := by
  intro l
  induction l with
  | nil => simp [segAbsorb]
  | cons pt rest ih =>
    simp only [segAbsorb]
    split
    · simpa using Nat.le_succ_of_le ih
    · split
      · simpa using Nat.le_succ_of_le ih
      · simp

/-- `end_pos` tracking over the absorbed tokens: each absorbed token of
non-zero width moves the tracked end to its end offset. -/
def updEnd (e : Option ℕ) (abs : List PTok) : Option ℕ :=
  abs.foldl (fun acc pt => if pt.2.1 < pt.2.2 then some pt.2.2 else acc) e

/-- The split-boundary computation at a flush: the sentence length when
no unabsorbed token remains; otherwise the next token's start offset
when the tracked end is unset or not beyond it, and the tracked end
offset otherwise. -/
def splitEnd (slen : ℕ) (e : Option ℕ) (rem : List PTok) : ℕ :=
  match rem with
  | [] => slen
  | (_, a, _) :: _ =>
    match e with
    | none => a
    | some ep => if ep ≤ a then a else ep

/-- The copy of a buffered token with its tag replaced by `ECF`
(`(t[0], 'ECF') + t[2:]`). -/
def retagECF : Token → Token
  | .t2 m _ => .t2 m (str "ECF")
  | .t3 m _ p => .t3 m (str "ECF") p
  | .t4 m _ p o => .t4 m (str "ECF") p o
  | t => t

/-- The EC-to-ECF rewrite of `flush_buffer`: when the buffer's last
token is tagged `EC`, it is replaced by its `ECF` copy. -/
def retagLastECF (buf : List Token) : List Token :=
  match buf.getLast? with
  | some t => if t.tagD = str "EC" then buf.dropLast ++ [retagECF t] else buf
  | none => buf

/-- `flush_buffer(explicit_end_pos)` emitting boundary triples
`(start_pos, final_end, tokens)` instead of sliced text: it emits
nothing for an empty buffer or unset start. -/
def flushB (start? : Option ℕ) (finalEnd : ℕ) (buf : List Token) :
    List (ℕ × ℕ × List Token) :=
  match buf, start? with
  | [], _ => []
  | _, none => []
  | _ :: _, some c => [(c, finalEnd, retagLastECF buf)]

/-- The boundary of a flush forced by an unabsorbed next token whose
position starts at `a`: `a` when the tracked end is unset or not beyond
`a`, the tracked end otherwise. -/
def segBoundary (en : Option ℕ) (a : ℕ) : ℕ :=
  match en with
  | none => a
  | some e => if e ≤ a then a else e

/-- The main loop of `segment_sentence_by_endings` over tokens zipped
with their positions, producing boundary triples.  The source's outer
walk and its inner lookahead after an EF token are embedded as one pass
with an `absorbing` flag: `false` is the outer walk, `true` is the
lookahead.  State: the buffered tokens, `start_pos` and `end_pos`.
Malformed tokens are skipped in both modes; in the lookahead, glue
tokens are absorbed (advancing `end_pos` on non-zero width) and the
first well-formed other token ends the lookahead, flushing the buffer
at the split boundary computed from that token's start; that token is
then handled by the outer walk (`idx = lookahead`).  A well-formed
token of the outer walk is buffered, setting `start_pos` on first
append and advancing `end_pos` on non-zero width, and an EF tag enters
the lookahead.  Exhausting the tokens flushes the buffer at the
sentence length (the lookahead's `split_end` with no token remaining,
and the source's final `flush_buffer`, coincide there). -/
def segLoopB (slen : ℕ) : List PTok → Bool → List Token → Option ℕ → Option ℕ →
    List (ℕ × ℕ × List Token)
  | [], _, buf, st, _ => flushB st slen buf
  | pt :: rest, absorbing, buf, st, en =>
    if pt.1.len < 2 then segLoopB slen rest absorbing buf st en
    else if absorbing && isSegGlue pt.1 then
      segLoopB slen rest true (buf ++ [pt.1]) st
        (if pt.2.1 < pt.2.2 then some pt.2.2 else en)
    else
      let pre := if absorbing then flushB st (segBoundary en pt.2.1) buf else []
      let buf0 := if absorbing then [] else buf
      let st0 := if absorbing then none else st
      let en0 := if absorbing then none else en
      pre ++ segLoopB slen rest (decide (pt.1.tagD ∈ splitEndingTags)) (buf0 ++ [pt.1])
        (some (st0.getD pt.2.1)) (if pt.2.1 < pt.2.2 then some pt.2.2 else en0)

/-- Python `str.strip()`-style whitespace (the characters occurring in
this corpus). -/
def isWSChar (c : Char) : Bool := c = ' ' || c = '\t' || c = '\n' || c = '\r'

/-- `sentence[a:b]`. -/
def sliceStr (s : Str) (a b : ℕ) : Str := (s.take b).drop a

/-- `text.strip()`. -/
def stripWS (s : Str) : Str :=
  ((s.dropWhile isWSChar).reverse.dropWhile isWSChar).reverse

/-- `MorphAnalyzer.segment_sentence_by_endings(sentence, tokens,
refinement_callback)`: empty sentence or empty token list falls back to
the single pair `(sentence, tokens)`; otherwise the tokens are refined
(`none` embeds the refiner's uncaught `IndexError`), positioned, and
the loop's boundary triples are sliced and stripped. -/
def segment_sentence_by_endings (s : Str) (tokens : List Token) (cb : Option Callback) :
    Option (List (Str × List Token)) :=
  if s.isEmpty || tokens.isEmpty then some [(s, tokens)]
  else
    (refine_tokens cb s tokens).map fun ts =>
      (segLoopB s.length (ts.zip (token_positions s ts)) false [] none none).map
        fun e => (stripWS (sliceStr s e.1 e.2.1), e.2.2)

/-! ## Banmal classifier (`MorphAnalyzer.is_banmal`) -/

/-- `polite_endings = ['요', '죠', '습니다', 'ㅂ니다', '까요', '나요', '인가요']`. -/
def politeEndings : List Str :=
  [['요'], ['죠'], ['습', '니', '다'], ['ㅂ', '니', '다'], ['까', '요'], ['나', '요'],
   ['인', '가', '요']]

/-- `any(p in morph for p in polite_endings)`: substring containment of
some politeness marker. -/
def isPoliteMorph (m : Str) : Bool := politeEndings.any (fun p => decide (p <:+: m))

/-- The score accumulation of `is_banmal`: `(banmal_score,
polite_score)`.  `ending[0], ending[1]` raises `IndexError` on a token
with fewer than 2 fields; embedded as `none`. -/
def banmalCounts : List Token → Option (ℕ × ℕ)
  | [] => some (0, 0)
  | t :: ts =>
    match t.tag? with
    | none => none
    | some _ =>
      (banmalCounts ts).map fun bp =>
        if isPoliteMorph t.morph then (bp.1, bp.2 + 1) else (bp.1 + 1, bp.2)

/-- `MorphAnalyzer.is_banmal(endings)`: empty input is polite
(`False`); otherwise informal iff not
(`polite_score > 0 and polite_score >= banmal_score * 0.5`). -/
def is_banmal (endings : List Token) : Option Bool :=
  if endings.isEmpty then some false
  else
    (banmalCounts endings).map fun bp =>
      !(decide (0 < bp.2) && decide ((bp.1 : ℚ) * (1/2) ≤ (bp.2 : ℚ)))

/-! ## Interactive decision cache (`03_process_morph.interactive_callback`) -/

/-- The decision cache `decision_cache`: keyed by `(morph, tag)`,
holding `'KEEP'`, `'SKIP'`, or a replacement tag.  A Python dict is
embedded as an association list whose most recent binding wins. -/
abbrev Cache := List ((Str × Str) × Str)

/-- `cache_key in decision_cache` lookup. -/
def cacheLookup (cache : Cache) (k : Str × Str) : Option Str :=
  (cache.find? (fun e => decide (e.1 = k))).map (fun e => e.2)

/-- `decision_cache[cache_key] = v`. -/
def cacheInsert (cache : Cache) (k : Str × Str) (v : Str) : Cache :=
  (k, v) :: cache

/-- A validated operator choice of the interactive loop.  The source
re-prompts in a loop until one of the recognized inputs is entered;
the decision source here is modelled as yielding that first recognized
choice (`e`, `k`, `c` with a non-empty tag, `d`, `s`, with the
apply-to-all suffix as a flag). -/
inductive Choice where
  | changeEF (applyAll : Bool)
  | keep (applyAll : Bool)
  | custom (tag : Str) (applyAll : Bool)
  | deleteSentence
  | skip
  deriving DecidableEq

/-- A decision source: the operator's validated choice for a prompted
token shown with its context window, index and sentence. -/
abbrev PromptFn := Token → List Token → ℕ → Option Str → Choice

/-- Outcome of one validated choice on a cache miss: the returned
decision and the updated cache (`e`/`k`/`c` cache only with the
apply-to-all flag, `s` always caches `'SKIP'`, `d` never caches). -/
def applyChoice (cache : Cache) (k : Str × Str) : Choice → Option Str × Cache
  | .changeEF all => (some (str "EF"), if all then cacheInsert cache k (str "EF") else cache)
  | .keep all => (none, if all then cacheInsert cache k (str "KEEP") else cache)
  | .custom tg all => (some tg, if all then cacheInsert cache k tg else cache)
  | .deleteSentence => (some (str "DELETE"), cache)
  | .skip => (none, cacheInsert cache k (str "SKIP"))

/-- `interactive_callback(token, context_tokens, index, sentence)` with
the cache threaded explicitly: on a cache hit the persisted verdict is
applied silently (`KEEP`/`SKIP` return no change, anything else is the
replacement tag) and the decision source is not consulted; on a miss
the decision source is invoked.  The returned triple is the decision,
the updated cache, and whether the decision source was invoked. -/
def interactive_callback (prompt : PromptFn) (cache : Cache) (token : Token)
    (ctx : List Token) (i : ℕ) (sentence : Option Str) :
    Option Str × Cache × Bool :=
  let key := (token.morph, token.tagD)
  match cacheLookup cache key with
  | some d =>
    if d = str "KEEP" then (none, cache, false)
    else if d = str "SKIP" then (none, cache, false)
    else (some d, cache, false)
  | none =>
    let rc := applyChoice cache key (prompt token ctx i sentence)
    (rc.1, rc.2, true)

/-! ## Analysis predicates and helper lemmas -/

/-- A token is well-formed when it has at least 2 fields. -/
def wfTok (t : Token) : Bool := decide (2 ≤ t.len)

/-- The position mapper never needs its fallback on this input: every
non-empty surface is found at or after the running cursor (unlocatable
surfaces, not found from the beginning either, are allowed). -/
def noFallback (s : Str) : ℕ → List Token → Bool
  | _, [] => true
  | c, t :: ts =>
    if t.morph = [] then noFallback s c ts
    else
      match findFrom s t.morph c with
      | some i => noFallback s (i + t.morph.length) ts
      | none =>
        match findFrom s t.morph 0 with
        | some _ => false
        | none => noFallback s c ts

/-- Ordered positioned tokens: each span starts at or after the bound
`e`, ends at or after its own start and within the sentence, and bounds
its successors (zero-width spans at the cursor are allowed). -/
def posOrd (slen : ℕ) : ℕ → List PTok → Bool
  | _, [] => true
  | e, (_, a, b) :: r => decide (e ≤ a) && decide (a ≤ b) && decide (b ≤ slen) && posOrd slen b r

/-- Start offset of the next positioned token, or the sentence length
when none remains. -/
def nextStart (slen : ℕ) : List PTok → ℕ
  | [] => slen
  | (_, a, _) :: _ => a

/-- Boundary triples tile the interval from `c` to `last`: each triple
starts where the previous one ended, and the last one ends at `last`. -/
def chainB (c last : ℕ) : List (ℕ × ℕ × List Token) → Bool
  | [] => decide (c = last)
  | (a, b, _) :: r => decide (a = c) && decide (a ≤ b) && chainB b last r

theorem findFrom_start_le {s pat : Str} {start i : ℕ} (h : findFrom s pat start = some i) :
    start ≤ i := by
  have hp := List.find?_some h
  simp only [Bool.and_eq_true, decide_eq_true_eq] at hp
  exact hp.1

theorem findFrom_matches {s pat : Str} {start i : ℕ} (h : findFrom s pat start = some i) :
    pat.isPrefixOf (s.drop i) = true := by
  have hp := List.find?_some h
  simp only [Bool.and_eq_true, decide_eq_true_eq] at hp
  exact hp.2

theorem findFrom_le_length {s pat : Str} {start i : ℕ} (h : findFrom s pat start = some i) :
    i + pat.length ≤ s.length := by
  have hmem := List.mem_of_find?_eq_some h
  have hi : i < s.length + 1 := by simpa [List.mem_range] using hmem
  have hpre : pat <+: s.drop i := by
    have := findFrom_matches h
    exact List.isPrefixOf_iff_prefix.mp this
  have hlen : pat.length ≤ (s.drop i).length := hpre.length_le
  simp only [List.length_drop] at hlen
  omega

/-! ## Claim C5: a malformed token can crash the refiner -/

/-- C5 (code_bug): the claim says a token with fewer than 2 fields is
skipped in place and never makes the sentence fail, but the EC rule's
end-of-sentence scan reads field 1 of every following token without a
length guard: on `[('가','EC',0.5,0), ('x',)]` the source raises
`IndexError`, embedded here as `refine_tokens` returning `none`. -/
theorem refine_tokens_raises_on_malformed :
    refine_tokens none [] [Token.t4 ['가'] (str "EC") (1/2) 0, Token.t1 ['x']] = none ∧
    refine_tokens none [] [Token.t4 ['가'] (str "EC") (1/2) 0, Token.t2 ['x'] (str "NNG")] =
      some [Token.t4 ['가'] (str "EC") (1/2) 0, Token.t2 ['x'] (str "NNG")] := by
  constructor
  · rfl
  · rfl

/-! ## Claim C7: cache hits bypass the decision source -/

/-- C7: when `(surface, tag)` is cached, `interactive_callback` returns
the cached outcome — no change for `KEEP`/`SKIP`, the replacement tag
otherwise — leaves the cache unchanged, and never consults the decision
source, whatever that source would answer. -/
theorem interactive_callback_cache_hit (prompt : PromptFn) (cache : Cache) (token : Token)
    (ctx : List Token) (i : ℕ) (sent : Option Str) (v : Str)
    (h : cacheLookup cache (token.morph, token.tagD) = some v) :
    interactive_callback prompt cache token ctx i sent =
      ((if v = str "KEEP" ∨ v = str "SKIP" then none else some v), cache, false) := by
  simp only [interactive_callback, h]
  by_cases h1 : v = str "KEEP"
  · simp [h1]
  · by_cases h2 : v = str "SKIP"
    · simp [h1, h2]
    · simp [h1, h2]

/-- Witness for C7 at a concrete cache holding a replacement verdict. -/
theorem interactive_callback_cache_hit_witness :
    interactive_callback (fun _ _ _ _ => Choice.skip) [((['임'], str "NNG"), str "EF")]
        (Token.t3 ['임'] (str "NNG") (1/2)) [] 0 none =
      (some (str "EF"), [((['임'], str "NNG"), str "EF")], false) := by
  have h := interactive_callback_cache_hit (fun _ _ _ _ => Choice.skip)
    [((['임'], str "NNG"), str "EF")] (Token.t3 ['임'] (str "NNG") (1/2)) [] 0 none
    (str "EF") (by decide)
  simpa using h

/-! ## Claim C9: which truncated tokens pass through unmodified -/

/-- C9 (counterexample): a 2-field token — one with a surface and tag
but no confidence — does not get the automatic rules with confidence
defaulted to 0.0: `('긔','NNG')` would be force-retagged to `EF` under
the claim (0.0 ≤ 0.9), but the source passes every token with fewer
than 3 fields through unmodified. -/
theorem refine_two_field_token_unmodified :
    refine_tokens none [] [Token.t2 ['긔'] (str "NNG")] =
      some [Token.t2 ['긔'] (str "NNG")] ∧
    str "NNG" ≠ str "EF" := by
  constructor
  · rfl
  · decide

/-- A token with surface, tag and confidence but no OOV field refines
like its 4-field padding with OOV 0, except that the original 3-tuple
is returned when no rule fires. -/
theorem refineCore_pad (s : Str) (all : List Token) (i : ℕ) (m tg : Str) (p : ℚ) :
    refineCore none s all i m tg p 0 (Token.t3 m tg p) =
      (refineCore none s all i m tg p 0 (Token.t4 m tg p 0)).map
        (fun u => if u = Token.t4 m tg p 0 then Token.t3 m tg p else u) := by
  simp only [refineCore]
  cases hscan : (if tg = str "EC" then ecScan all (i + 1) else some false) with
  | none => simp
  | some isLast =>
    simp only [Option.some_bind, Option.map_some']
    split
    all_goals simp_all [Token.t4.injEq]

/-- C9 (amended): tokens with fewer than 3 fields pass through the
refiner unmodified (in particular all tokens with fewer than 2 fields);
a token with surface, tag and confidence but no OOV field gets the
automatic rules with the OOV flag treated as 0: its refinement agrees
with the 4-field token padded with OOV 0, except that when no rule
fires the original 3-tuple is returned. -/
theorem refine_short_tokens (cb : Option Callback) (s : Str) (ts : List Token) :
    (∀ ts', refine_tokens cb s ts = some ts' →
      List.Forall₂ (fun a b => a.len < 3 → b = a) ts ts') ∧
    (∀ (all : List Token) (i : ℕ) (m : Str) (tg : Str) (p : ℚ),
      refineOne none s all i (Token.t3 m tg p) =
        (refineOne none s all i (Token.t4 m tg p 0)).map
          (fun u => if u = Token.t4 m tg p 0 then Token.t3 m tg p else u)) := by
  constructor
  · have key : ∀ (rest : List Token) (i : ℕ) (out : List Token),
        refineGo cb s ts i rest = some out →
        List.Forall₂ (fun a b => a.len < 3 → b = a) rest out := by
      intro rest
      induction rest with
      | nil =>
        intro i out h
        simp only [refineGo] at h
        cases h
        exact List.Forall₂.nil
      | cons t rest ih =>
        intro i out h
        simp only [refineGo, bind, Option.bind] at h
        cases h1 : refineOne cb s ts i t with
        | none => rw [h1] at h; cases h
        | some t' =>
          rw [h1] at h
          cases h2 : refineGo cb s ts (i + 1) rest with
          | none => rw [h2] at h; cases h
          | some out' =>
            rw [h2] at h
            cases h
            refine List.Forall₂.cons ?_ (ih (i + 1) out' h2)
            intro hlen
            cases t with
            | t0 => simpa [refineOne] using h1.symm
            | t1 m => simpa [refineOne] using h1.symm
            | t2 m tg => simpa [refineOne] using h1.symm
            | t3 m tg p => simp [Token.len] at hlen
            | t4 m tg p o => simp [Token.len] at hlen
    exact fun ts' h => key ts 0 ts' h
  · intro all i m tg p
    simp only [refineOne]
    exact refineCore_pad s all i m tg p

/-- Witness for C9 at a 2-field token (left unmodified by the refiner)
and a 3-field token (refined as its 0-padded 4-field form). -/
theorem refine_short_tokens_witness :
    List.Forall₂ (fun a b => a.len < 3 → b = a)
      [Token.t2 ['긔'] (str "NNG"), Token.t3 ['음'] (str "ETN") (6/10)]
      [Token.t2 ['긔'] (str "NNG"), Token.t4 ['음'] (str "EF") (6/10) 0] ∧
    refineOne none [] [] 0 (Token.t3 ['긔'] (str "NNG") (1/2)) =
      (refineOne none [] [] 0 (Token.t4 ['긔'] (str "NNG") (1/2) 0)).map
        (fun u => if u = Token.t4 ['긔'] (str "NNG") (1/2) 0
          then Token.t3 ['긔'] (str "NNG") (1/2) else u) := by
  constructor
  · exact (refine_short_tokens none []
      [Token.t2 ['긔'] (str "NNG"), Token.t3 ['음'] (str "ETN") (6/10)]).1
      [Token.t2 ['긔'] (str "NNG"), Token.t4 ['음'] (str "EF") (6/10) 0] rfl
  · exact (refine_short_tokens none [] []).2 [] 0 ['긔'] (str "NNG") (1/2)

/-! ## Claim C8: the banmal formula -/

/-- The 0.5 politeness ratio over the naturals. -/
theorem banmal_ratio (b p : ℕ) : ((b : ℚ) * (1/2) ≤ (p : ℚ)) ↔ b ≤ 2 * p := by
  rw [mul_one_div, div_le_iff₀ (by norm_num : (0:ℚ) < 2)]
  rw [show ((p:ℚ) * 2) = ((2 * p : ℕ) : ℚ) by push_cast; ring]
  exact Nat.cast_le

/-- The score loop counts informal and polite endings. -/
theorem banmalCounts_eq (l : List Token) (h : ∀ t ∈ l, 2 ≤ t.len) :
    banmalCounts l = some (l.countP (fun t => !isPoliteMorph t.morph),
      l.countP (fun t => isPoliteMorph t.morph)) := by
  induction l with
  | nil => simp [banmalCounts]
  | cons t ts ih =>
    have ht : 2 ≤ t.len := h t (by simp)
    have hts : ∀ u ∈ ts, 2 ≤ u.len := fun u hu => h u (by simp [hu])
    have htag : ∃ tg, t.tag? = some tg := by
      cases t <;> simp_all [Token.len, Token.tag?]
    obtain ⟨tg, htg⟩ := htag
    simp only [banmalCounts, htg, ih hts, Option.map_some']
    by_cases hp : isPoliteMorph t.morph <;>
      simp [hp, List.countP_cons]

/-- C8: on ending tokens with at least 2 fields, `is_banmal` returns
false on the empty list, and otherwise — counting an ending as polite
iff its surface contains a politeness marker as a substring — returns
false exactly when `politeCount > 0` and
`politeCount ≥ informalCount × 0.5`, true in every other case. -/
theorem is_banmal_formula (endings : List Token) (h : ∀ t ∈ endings, 2 ≤ t.len) :
    is_banmal endings = some (decide (endings ≠ [] ∧
      ¬(0 < endings.countP (fun t => isPoliteMorph t.morph) ∧
        endings.countP (fun t => !isPoliteMorph t.morph) ≤
          2 * endings.countP (fun t => isPoliteMorph t.morph)))) := by
  cases hne : endings with
  | nil => simp [is_banmal]
  | cons t ts =>
    subst hne
    rw [is_banmal, if_neg (by simp), banmalCounts_eq _ h]
    simp only [Option.map_some', Option.some.injEq]
    have hq : decide ((((t :: ts).countP (fun u => !isPoliteMorph u.morph) : ℚ)) * (1/2) ≤
          (((t :: ts).countP (fun u => isPoliteMorph u.morph) : ℚ))) =
        decide ((t :: ts).countP (fun u => !isPoliteMorph u.morph) ≤
          2 * (t :: ts).countP (fun u => isPoliteMorph u.morph)) :=
      decide_eq_decide.mpr (banmal_ratio _ _)
    rw [hq, Bool.eq_iff_iff]
    simp

/-- Witness for C8: a single polite ending `('요','EF')` classifies as
polite, matching the formula. -/
theorem is_banmal_formula_witness :
    (∀ t ∈ [Token.t2 ['요'] (str "EF")], 2 ≤ t.len) ∧
    is_banmal [Token.t2 ['요'] (str "EF")] = some false := by
  refine ⟨by decide, ?_⟩
  exact (is_banmal_formula [Token.t2 ['요'] (str "EF")] (by decide)).trans (by decide)

/-- Cursor-prefixed starts of the position mapper form a
non-decreasing chain when the fallback search never fires. -/
theorem token_positions_from_chain (s : Str) :
    ∀ (ts : List Token) (c : ℕ), noFallback s c ts = true →
      List.Chain' (fun x y => x ≤ y) (c :: (token_positions_from s c ts).map Prod.fst) := by
  intro ts
  induction ts with
  | nil =>
    intro c _
    simp [token_positions_from]
  | cons t rest ih =>
    intro c h
    rw [noFallback] at h
    rw [token_positions_from]
    by_cases hm : t.morph = []
    · rw [if_pos hm] at h
      rw [if_pos hm, List.map_cons]
      exact List.chain'_cons.mpr ⟨le_refl c, ih c h⟩
    · rw [if_neg hm] at h
      rw [if_neg hm]
      cases hf : findFrom s t.morph c with
      | some i =>
        rw [hf] at h
        have hci : c ≤ i := findFrom_start_le hf
        have hchain := ih (i + t.morph.length) h
        rw [List.map_cons]
        refine List.chain'_cons.mpr ⟨hci, ?_⟩
        refine List.chain'_cons'.mpr ⟨?_, (List.chain'_cons'.mp hchain).2⟩
        intro b hb
        have hle := (List.chain'_cons'.mp hchain).1 b hb
        omega
      | none =>
        rw [hf] at h
        cases hf0 : findFrom s t.morph 0 with
        | some j =>
          rw [hf0] at h
          cases h
        | none =>
          rw [hf0] at h
          rw [List.map_cons]
          exact List.chain'_cons.mpr ⟨le_refl c, ih c h⟩

/-- C2 (counterexample): with the sentence `"ab"` and tokens
`[('b','X'), ('a','X')]` the fallback search from the beginning fires
for `'a'` and places it before the previous match: the recorded starts
`[1, 0]` are not monotonically non-decreasing. -/
theorem token_positions_fallback_nonmonotone :
    token_positions ['a', 'b'] [Token.t2 ['b'] (str "X"), Token.t2 ['a'] (str "X")]
      = [(1, 2), (0, 1)] ∧
    ¬ List.Chain' (fun x y => x ≤ y)
      ((token_positions ['a', 'b']
        [Token.t2 ['b'] (str "X"), Token.t2 ['a'] (str "X")]).map Prod.fst) := by
  constructor
  · rfl
  · rw [show ((token_positions ['a', 'b']
        [Token.t2 ['b'] (str "X"), Token.t2 ['a'] (str "X")]).map Prod.fst) = [1, 0] from rfl]
    simp [List.chain'_cons]

/-- C2 (amended): when every located surface is found at or after the
running cursor (the fallback search from the beginning never fires),
the recorded start offsets are monotonically non-decreasing; and an
unlocatable token is always emitted as a zero-width position at the
current cursor, which does not advance. -/
theorem token_positions_monotone (s : Str) (ts : List Token)
    (h : noFallback s 0 ts = true) :
    List.Chain' (fun x y => x ≤ y) ((token_positions s ts).map Prod.fst) ∧
    (∀ (c : ℕ) (t : Token) (rest : List Token), t.morph ≠ [] →
      findFrom s t.morph c = none → findFrom s t.morph 0 = none →
      token_positions_from s c (t :: rest) = (c, c) :: token_positions_from s c rest) := by
  constructor
  · exact (token_positions_from_chain s ts 0 h).tail
  · intro c t rest hm hf hf0
    rw [token_positions_from, if_neg hm, hf, hf0]

/-- Witness for C2 at an in-order token list. -/
theorem token_positions_monotone_witness :
    noFallback ['a', 'b'] 0 [Token.t2 ['a'] (str "X"), Token.t2 ['b'] (str "X")] = true ∧
    List.Chain' (fun x y => x ≤ y)
      ((token_positions ['a', 'b']
        [Token.t2 ['a'] (str "X"), Token.t2 ['b'] (str "X")]).map Prod.fst) := by
  exact ⟨by decide,
    (token_positions_monotone ['a', 'b']
      [Token.t2 ['a'] (str "X"), Token.t2 ['b'] (str "X")] (by decide)).1⟩

/-! ## Claim C6: ending clusters -/

theorem absorbJEP_fst_eq (ts : List Token) :
    (absorbJEP ts).1 = (ts.filter wfTok).takeWhile isJorEP := by
  induction ts with
  | nil => simp [absorbJEP]
  | cons t ts ih =>
    by_cases hw : t.len < 2
    · have hwf : wfTok t = false := by simp [wfTok]; omega
      rw [List.filter_cons_of_neg (by simp [hwf])]
      simp only [absorbJEP, if_pos hw]
      by_cases he : (absorbJEP ts).1.isEmpty
      · rw [if_pos he]
        rw [← ih]
        exact (List.isEmpty_iff.mp he).symm
      · rw [if_neg he]
        exact ih
    · have hwf : wfTok t = true := by simp [wfTok]; omega
      rw [List.filter_cons_of_pos (by simp [hwf])]
      by_cases hg : isJorEP t
      · simp only [absorbJEP, if_neg hw, if_pos hg]
        rw [List.takeWhile_cons_of_pos hg]
        simpa using ih
      · simp only [absorbJEP, if_neg hw, if_neg hg]
        rw [List.takeWhile_cons_of_neg (by simpa using hg)]

theorem absorbJEP_snd_of_fst_nil (l : List Token) (h : (absorbJEP l).1 = []) :
    (absorbJEP l).2 = l := by
  cases l with
  | nil => rfl
  | cons t ts =>
    simp only [absorbJEP] at h ⊢
    by_cases hw : t.len < 2
    · rw [if_pos hw] at h ⊢
      by_cases he : (absorbJEP ts).1.isEmpty
      · rw [if_pos he] at h ⊢
      · rw [if_neg he] at h ⊢
        exact absurd (List.isEmpty_iff.mpr h) he
    · rw [if_neg hw] at h ⊢
      by_cases hg : isJorEP t
      · rw [if_pos hg] at h
        simp at h
      · rw [if_neg hg] at h ⊢

theorem absorbJEP_snd_suffix (l : List Token) : (absorbJEP l).2 <:+ l := by
  induction l with
  | nil => simp [absorbJEP]
  | cons t ts ih =>
    simp only [absorbJEP]
    by_cases hw : t.len < 2
    · rw [if_pos hw]
      by_cases he : (absorbJEP ts).1.isEmpty
      · rw [if_pos he]
      · rw [if_neg he]
        exact ih.trans (List.suffix_cons t ts)
    · rw [if_neg hw]
      by_cases hg : isJorEP t
      · rw [if_pos hg]
        exact ih.trans (List.suffix_cons t ts)
      · rw [if_neg hg]

theorem extractClustersGo_absorb (ts : List Token) (cur : List Token) :
    extractClustersGo ts true cur =
      (cur ++ (absorbJEP ts).1) :: extractClustersGo (absorbJEP ts).2 false [] := by
  induction ts generalizing cur with
  | nil => simp [extractClustersGo, absorbJEP]
  | cons t ts ih =>
    by_cases hw : t.len < 2
    · simp only [extractClustersGo, if_pos hw, absorbJEP]
      by_cases he : (absorbJEP ts).1.isEmpty
      · rw [if_pos he, ih]
        have hnil := List.isEmpty_iff.mp he
        rw [hnil, absorbJEP_snd_of_fst_nil ts hnil]
        simp only [List.append_nil]
        congr 1
        simp [extractClustersGo, if_pos hw]
      · rw [if_neg he, ih]
    · by_cases hg : isJorEP t
      · simp only [extractClustersGo, if_neg hw, if_pos hg, Bool.true_and, absorbJEP]
        rw [ih]
        simp
      · simp only [extractClustersGo, if_neg hw, absorbJEP, Bool.true_and, if_neg hg]
        by_cases hfin : t.tagD ∈ finalEndingTags
        · simp [extractClustersGo, hw, hg, hfin]
        · simp [extractClustersGo, hw, hg, hfin]

theorem extractClustersGo_join (ts : List Token) :
    ∀ (b : Bool) (cur : List Token),
      (extractClustersGo ts b cur).flatten = (if b then cur else []) ++ extractGo ts b := by
  induction ts with
  | nil =>
    intro b cur
    cases b <;> simp [extractClustersGo, extractGo]
  | cons t ts ih =>
    intro b cur
    by_cases hw : t.len < 2
    · simp only [extractClustersGo, extractGo, if_pos hw]
      exact ih b cur
    · cases b with
      | true =>
        by_cases hg : isJorEP t
        · simp only [extractClustersGo, extractGo, if_neg hw, Bool.true_and, if_pos hg]
          rw [ih true (cur ++ [t])]
          simp
        · simp only [extractClustersGo, extractGo, if_neg hw, Bool.true_and, if_neg hg]
          by_cases hfin : t.tagD ∈ finalEndingTags
          · simp [hfin, ih true [t]]
          · simp [hfin, ih false []]
      | false =>
        simp only [extractClustersGo, extractGo, if_neg hw, Bool.false_and, Bool.false_eq_true,
          if_false]
        by_cases hfin : t.tagD ∈ finalEndingTags
        · simp [hfin, ih true [t]]
        · simp [hfin, ih false []]

theorem extractClusters_infix_aux :
    ∀ (n : ℕ) (ts : List Token), ts.length ≤ n →
      ∀ c ∈ extractClustersGo ts false [], c <:+: ts.filter wfTok := by
  intro n
  induction n with
  | zero =>
    intro ts hlen c hc
    have hnil : ts = [] := List.length_eq_zero.mp (Nat.le_zero.mp hlen)
    subst hnil
    simp [extractClustersGo] at hc
  | succ n ih =>
    intro ts hlen c hc
    cases ts with
    | nil => simp [extractClustersGo] at hc
    | cons t ts2 =>
      simp only [List.length_cons, Nat.add_le_add_iff_right] at hlen
      by_cases hw : t.len < 2
      · simp only [extractClustersGo, if_pos hw] at hc
        have hwf : ¬(wfTok t = true) := by simp [wfTok]; omega
        rw [List.filter_cons_of_neg (by simpa using hwf)]
        exact ih ts2 hlen c hc
      · have hwf : wfTok t = true := by simp [wfTok]; omega
        simp only [extractClustersGo, if_neg hw, Bool.false_and, Bool.false_eq_true, if_false] at hc
        rw [List.filter_cons_of_pos (by simpa using hwf)]
        by_cases hfin : t.tagD ∈ finalEndingTags
        · rw [if_pos hfin] at hc
          rw [extractClustersGo_absorb] at hc
          simp only [List.nil_append] at hc
          rcases List.mem_cons.mp hc with hc1 | hc2
          · subst hc1
            have hpre : (absorbJEP ts2).1 <+: ts2.filter wfTok := by
              rw [absorbJEP_fst_eq]
              exact List.takeWhile_prefix _
            obtain ⟨r, hr⟩ := hpre
            refine ⟨[], r, ?_⟩
            simp [hr]
          · have hsuf := absorbJEP_snd_suffix ts2
            have hlen2 : (absorbJEP ts2).2.length ≤ n := le_trans hsuf.length_le hlen
            have hi := ih _ hlen2 c hc2
            exact ((hi.trans (hsuf.filter _).isInfix)).trans (List.infix_cons (List.infix_refl _))
        · rw [if_neg hfin] at hc
          simp only [List.nil_append] at hc
          exact (ih ts2 hlen c hc).trans (List.infix_cons (List.infix_refl _))

/-- C6 (counterexample): a malformed 1-field token between an EF token
and the particle its lookahead absorbs makes the extracted cluster a
non-contiguous sub-sequence of the input token list. -/
theorem extract_cluster_not_contiguous :
    extractClusters [Token.t2 ['다'] (str "EF"), Token.t1 ['x'], Token.t2 ['요'] (str "JX")]
      = [[Token.t2 ['다'] (str "EF"), Token.t2 ['요'] (str "JX")]] ∧
    ¬ ([Token.t2 ['다'] (str "EF"), Token.t2 ['요'] (str "JX")] <:+:
      [Token.t2 ['다'] (str "EF"), Token.t1 ['x'], Token.t2 ['요'] (str "JX")]) := by
  constructor
  · rfl
  · decide

/-- C6 (amended): `extract_final_endings` is the concatenation of its
ending clusters, and every cluster — an EF/ECF token with the J/EP
tokens greedily absorbed after it — is a contiguous sub-sequence of the
input token list with the malformed tokens (fewer than 2 fields)
removed, hence ends at or before that list's last token. -/
theorem extract_final_endings_clusters (tokens : List Token) :
    extract_final_endings tokens = (extractClusters tokens).flatten ∧
    ∀ c ∈ extractClusters tokens, c <:+: tokens.filter wfTok := by
  constructor
  · rw [extract_final_endings, extractClusters, extractClustersGo_join]
    simp
  · exact extractClusters_infix_aux tokens.length tokens le_rfl

/-- Witness for C6 at a clause with one EF cluster. -/
theorem extract_final_endings_clusters_witness :
    [Token.t2 ['다'] (str "EF"), Token.t2 ['요'] (str "JX")] ∈
      extractClusters [Token.t2 ['가'] (str "VV"), Token.t2 ['다'] (str "EF"),
        Token.t2 ['요'] (str "JX")] ∧
    [Token.t2 ['다'] (str "EF"), Token.t2 ['요'] (str "JX")] <:+:
      ([Token.t2 ['가'] (str "VV"), Token.t2 ['다'] (str "EF"),
        Token.t2 ['요'] (str "JX")].filter wfTok) := by
  refine ⟨by decide, ?_⟩
  exact (extract_final_endings_clusters [Token.t2 ['가'] (str "VV"),
    Token.t2 ['다'] (str "EF"), Token.t2 ['요'] (str "JX")]).2 _ (by decide)

/-! ## Claim C4: the split boundary -/

/-- The lookahead phase of `segLoopB` computes exactly the source's
inner loop: absorbed glue tokens extend the buffer and the tracked end,
and the flush happens at `splitEnd` of the tracked end and the tokens
remaining unabsorbed. -/
theorem segLoopB_split_step (slen : ℕ) (rest : List PTok) :
    ∀ (buf1 : List Token) (c : ℕ) (en1 : Option ℕ),
      segLoopB slen rest true buf1 (some c) en1 =
        flushB (some c) (splitEnd slen (updEnd en1 (segAbsorb rest).1) (segAbsorb rest).2)
            (buf1 ++ (segAbsorb rest).1.map (fun q => q.1))
          ++ segLoopB slen (segAbsorb rest).2 false [] none none := by
  induction rest with
  | nil =>
    intro buf1 c en1
    simp [segLoopB, segAbsorb, splitEnd, updEnd, flushB]
  | cons pt r ih =>
    intro buf1 c en1
    obtain ⟨t1, a1, b1⟩ := pt
    by_cases hw : t1.len < 2
    · rw [segLoopB, if_pos hw, ih]
      simp [segAbsorb, if_pos hw]
    · by_cases hg : isSegGlue t1
      · rw [segLoopB, if_neg hw, if_pos (by simp [hg]), ih]
        simp only [segAbsorb, if_neg hw, if_pos hg]
        simp [updEnd, List.append_assoc]
      · rw [segLoopB, if_neg hw, if_neg (by simp [hg])]
        have htail : segLoopB slen ((t1, a1, b1) :: r) false [] none none
            = segLoopB slen r (decide (t1.tagD ∈ splitEndingTags))
              [t1] (some a1) (if a1 < b1 then some b1 else none) := by
          rw [segLoopB]
          simp [if_neg hw, hg]
        simp only [segAbsorb, if_neg hw, if_neg hg, htail]
        simp [splitEnd, segBoundary, updEnd]

/-- C4 (counterexample): with the sentence `"ab"` and tokens
`[('b','EF'), ('a','NN')]` the flush after the EF token leaves the
unabsorbed token `('a', (0,1))`, yet the emitted boundary is the
tracked end offset 2, not that token's start offset 0 (the source only
uses the next start when `next_start >= end_pos`). -/
theorem segLoopB_boundary_not_next_start :
    segLoopB 2 [(Token.t2 ['b'] (str "EF"), 1, 2), (Token.t2 ['a'] (str "NN"), 0, 1)]
        false [] none none
      = [(1, 2, [Token.t2 ['b'] (str "EF")]), (0, 2, [Token.t2 ['a'] (str "NN")])] ∧
    segAbsorb [(Token.t2 ['a'] (str "NN"), 0, 1)]
      = ([], [(Token.t2 ['a'] (str "NN"), 0, 1)]) ∧
    (2 : ℕ) ≠ 0 := by
  refine ⟨rfl, rfl, by decide⟩

/-- C4 (amended): when a well-formed EF-tagged token is reached by the
outer walk, the source's lookahead absorbs `(segAbsorb rest).1` and a
segment is flushed whose end boundary is: the sentence's full length
when no unabsorbed token remains; otherwise the maximum of the next
unabsorbed token's start offset and the tracked end offset when that
offset is set, and exactly the next token's start offset when it is
not. -/
theorem segLoopB_flush_boundary (slen : ℕ) (pt : PTok) (rest : List PTok)
    (buf : List Token) (st en : Option ℕ)
    (hwf : ¬ pt.1.len < 2) (htag : pt.1.tagD ∈ splitEndingTags) :
    segLoopB slen (pt :: rest) false buf st en =
      flushB (some (st.getD pt.2.1))
          (splitEnd slen
            (updEnd (if pt.2.1 < pt.2.2 then some pt.2.2 else en) (segAbsorb rest).1)
            (segAbsorb rest).2)
          ((buf ++ [pt.1]) ++ (segAbsorb rest).1.map (fun q => q.1))
        ++ segLoopB slen (segAbsorb rest).2 false [] none none ∧
    (∀ (e : Option ℕ), splitEnd slen e [] = slen) ∧
    (∀ (e : ℕ) (q : PTok) (r : List PTok), splitEnd slen (some e) (q :: r) = max q.2.1 e) ∧
    (∀ (q : PTok) (r : List PTok), splitEnd slen none (q :: r) = q.2.1) := by
  refine ⟨?_, fun e => rfl, ?_, ?_⟩
  · obtain ⟨t1, a1, b1⟩ := pt
    rw [segLoopB, if_neg hwf]
    simp only [Bool.false_and, Bool.false_eq_true, if_false, Option.getD_none]
    rw [decide_eq_true htag, segLoopB_split_step]
    simp [List.append_assoc]
  · intro e q r
    obtain ⟨tq, aq, bq⟩ := q
    simp only [splitEnd]
    rcases Nat.le_total e aq with h | h
    · rw [if_pos h]
      omega
    · by_cases he : e ≤ aq
      · rw [if_pos he]; omega
      · rw [if_neg he]; omega
  · intro q r
    obtain ⟨tq, aq, bq⟩ := q
    simp [splitEnd]

/-- Witness for C4: a flush with one absorbed particle and one
remaining token; the boundary evaluates to that token's start. -/
theorem segLoopB_flush_boundary_witness :
    segLoopB 6 [(Token.t2 ['다'] (str "EF"), 1, 2), (Token.t2 ['요'] (str "JX"), 2, 3),
        (Token.t2 ['가'] (str "VV"), 4, 5)] false [] none none
      = flushB (some 1)
          (splitEnd 6
            (updEnd (some 2) (segAbsorb [(Token.t2 ['요'] (str "JX"), 2, 3),
              (Token.t2 ['가'] (str "VV"), 4, 5)]).1)
            (segAbsorb [(Token.t2 ['요'] (str "JX"), 2, 3),
              (Token.t2 ['가'] (str "VV"), 4, 5)]).2)
          (([] ++ [Token.t2 ['다'] (str "EF")]) ++ (segAbsorb [(Token.t2 ['요'] (str "JX"), 2, 3),
              (Token.t2 ['가'] (str "VV"), 4, 5)]).1.map (fun q => q.1))
        ++ segLoopB 6 (segAbsorb [(Token.t2 ['요'] (str "JX"), 2, 3),
              (Token.t2 ['가'] (str "VV"), 4, 5)]).2 false [] none none ∧
    splitEnd 6
        (updEnd (some 2) (segAbsorb [(Token.t2 ['요'] (str "JX"), 2, 3),
          (Token.t2 ['가'] (str "VV"), 4, 5)]).1)
        (segAbsorb [(Token.t2 ['요'] (str "JX"), 2, 3),
          (Token.t2 ['가'] (str "VV"), 4, 5)]).2 = 4 := by
  constructor
  · exact (segLoopB_flush_boundary 6 (Token.t2 ['다'] (str "EF"), 1, 2)
      [(Token.t2 ['요'] (str "JX"), 2, 3), (Token.t2 ['가'] (str "VV"), 4, 5)]
      [] none none (by decide) (by decide)).1
  · rfl

/-! ## Claim C3: non-empty output -/

/-- C3 (counterexample): a non-empty sentence with a non-empty token
list whose only token is malformed yields the empty segment list — the
whole-sentence fallback only fires for an empty sentence or an empty
token list. -/
theorem segment_empty_on_all_malformed :
    segment_sentence_by_endings ['a'] [Token.t1 ['x']] none = some [] ∧
    (['a'] : Str) ≠ [] ∧ ([Token.t1 ['x']] : List Token) ≠ [] := by
  refine ⟨rfl, by decide, by decide⟩

/-- Both branches of a token-valued conditional keep at least 2
fields. -/
theorem len_ite (c : Prop) [Decidable c] (a b : Token) (ha : 2 ≤ a.len) (hb : 2 ≤ b.len) :
    2 ≤ (if c then a else b).len := by
  split
  · exact ha
  · exact hb

/-- The refiner never turns a well-formed token into a malformed one. -/
theorem refineOne_wf (cb : Option Callback) (s : Str) (all : List Token) (i : ℕ)
    (t t' : Token) (h : refineOne cb s all i t = some t') (hw : 2 ≤ t.len) :
    2 ≤ t'.len := by
  cases t with
  | t0 => simp [Token.len] at hw
  | t1 m => simp [Token.len] at hw
  | t2 m tg =>
    simp only [refineOne, Option.some.injEq] at h
    subst h
    exact hw
  | t3 m tg p =>
    simp only [refineOne, refineCore] at h
    cases hscan : (if tg = str "EC" then ecScan all (i + 1) else some false) with
    | none => rw [hscan] at h; cases h
    | some isLast =>
      rw [hscan] at h
      simp only [Option.some_bind, Option.some.injEq] at h
      subst h
      exact len_ite _ _ _ (by simp [Token.len]) (by simp [Token.len])
  | t4 m tg p o =>
    simp only [refineOne, refineCore] at h
    cases hscan : (if tg = str "EC" then ecScan all (i + 1) else some false) with
    | none => rw [hscan] at h; cases h
    | some isLast =>
      rw [hscan] at h
      simp only [Option.some_bind, Option.some.injEq] at h
      subst h
      exact len_ite _ _ _ (by simp [Token.len]) (by simp [Token.len])

/-- The refiner's loop relates input and output positionally, keeping
well-formedness. -/
theorem refineGo_wf (cb : Option Callback) (s : Str) (all : List Token) :
    ∀ (rest : List Token) (i : ℕ) (out : List Token),
      refineGo cb s all i rest = some out →
      List.Forall₂ (fun a b => 2 ≤ a.len → 2 ≤ b.len) rest out := by
  intro rest
  induction rest with
  | nil =>
    intro i out h
    simp only [refineGo] at h
    cases h
    exact List.Forall₂.nil
  | cons t ts ih =>
    intro i out h
    simp only [refineGo, bind, Option.bind] at h
    cases h1 : refineOne cb s all i t with
    | none => rw [h1] at h; cases h
    | some t' =>
      rw [h1] at h
      cases h2 : refineGo cb s all (i + 1) ts with
      | none => rw [h2] at h; cases h
      | some out' =>
        rw [h2] at h
        cases h
        exact List.Forall₂.cons (fun hw => refineOne_wf cb s all i t t' h1 hw) (ih (i + 1) out' h2)

/-- `segLoopB` emits at least one triple when the buffer is non-empty
with a set start, or when the outer walk still has a well-formed token
to see. -/
theorem segLoopB_ne_nil (slen : ℕ) :
    ∀ (l : List PTok) (ab : Bool) (buf : List Token) (st en : Option ℕ),
      ((buf ≠ [] ∧ ∃ c, st = some c) ∨ (ab = false ∧ ∃ pt ∈ l, 2 ≤ pt.1.len)) →
      segLoopB slen l ab buf st en ≠ [] := by
  intro l
  induction l with
  | nil =>
    intro ab buf st en h
    rcases h with ⟨hbuf, c, hst⟩ | ⟨_, pt, hpt, _⟩
    · subst hst
      cases buf with
      | nil => exact absurd rfl hbuf
      | cons b bs => simp [segLoopB, flushB]
    · cases hpt
  | cons pt rest ih =>
    intro ab buf st en h
    by_cases hw : pt.1.len < 2
    · rw [segLoopB, if_pos hw]
      refine ih ab buf st en ?_
      rcases h with h1 | ⟨hab, q, hq, hqw⟩
      · exact Or.inl h1
      · rcases List.mem_cons.mp hq with rfl | hq2
        · omega
        · exact Or.inr ⟨hab, q, hq2, hqw⟩
    · rw [segLoopB, if_neg hw]
      by_cases hg : (ab && isSegGlue pt.1) = true
      · rw [if_pos hg]
        refine ih true (buf ++ [pt.1]) st _ (Or.inl ⟨by simp, ?_⟩)
        rcases h with ⟨_, c, hst⟩ | ⟨hab, _⟩
        · exact ⟨c, hst⟩
        · rw [hab] at hg; simp at hg
      · rw [if_neg hg]
        by_cases hab : ab
        · rcases h with ⟨hbuf, c, hst⟩ | ⟨habf, _⟩
          · subst hst
            rw [hab]
            cases buf with
            | nil => exact absurd rfl hbuf
            | cons b bs => simp [flushB]
          · rw [habf] at hab; cases hab
        · simp only [Bool.not_eq_true] at hab
          subst hab
          simp only [Bool.false_eq_true, if_false, List.nil_append]
          refine fun hc => ih _ (buf ++ [pt.1]) _ _ (Or.inl ⟨by simp, _, rfl⟩) (by simpa using hc)

/-- Positional existence transfers along `Forall₂`. -/
theorem exists_wf_of_forall₂ (l l' : List Token)
    (hf : List.Forall₂ (fun a b => 2 ≤ a.len → 2 ≤ b.len) l l')
    (h : ∃ t ∈ l, 2 ≤ t.len) : ∃ t ∈ l', 2 ≤ t.len := by
  induction hf with
  | nil => rcases h with ⟨t, ht, _⟩; cases ht
  | cons hab hrest ih =>
    rcases h with ⟨t, ht, htw⟩
    rcases List.mem_cons.mp ht with rfl | ht2
    · exact ⟨_, by simp, hab htw⟩
    · obtain ⟨u, hu, huw⟩ := ih ⟨t, ht2, htw⟩
      exact ⟨u, by simp [hu], huw⟩

/-- A well-formed token survives zipping with a same-length position
list. -/
theorem exists_wf_zip : ∀ (ts : List Token) (pos : List (ℕ × ℕ)), pos.length = ts.length →
    (∃ t ∈ ts, 2 ≤ t.len) → ∃ pt ∈ ts.zip pos, 2 ≤ pt.1.len := by
  intro ts
  induction ts with
  | nil =>
    intro pos _ h
    rcases h with ⟨t, ht, _⟩
    cases ht
  | cons t ts2 ih =>
    intro pos hlen h
    cases pos with
    | nil => simp at hlen
    | cons p ps =>
      rcases h with ⟨u, hu, huw⟩
      rcases List.mem_cons.mp hu with rfl | hu2
      · exact ⟨(u, p), by simp, huw⟩
      · obtain ⟨pt, hpt, hptw⟩ := ih ps (by simpa using hlen) ⟨u, hu2, huw⟩
        exact ⟨pt, by simp [hpt], hptw⟩

/-- C3 (amended): a non-empty sentence with a token list containing at
least one token of at least 2 fields yields, when the refiner does not
raise, a non-empty sequence of segments; with an empty sentence or
empty token list the whole input is returned as one segment. -/
theorem segment_nonempty (s : Str) (ts : List Token) (cb : Option Callback) (ts' : List Token)
    (hs : s ≠ []) (hwf : ∃ t ∈ ts, 2 ≤ t.len)
    (href : refine_tokens cb s ts = some ts') :
    (∃ segs, segment_sentence_by_endings s ts cb = some segs ∧ segs ≠ []) ∧
    (∀ (s2 : Str) (ts2 : List Token), s2 = [] ∨ ts2 = [] →
      segment_sentence_by_endings s2 ts2 cb = some [(s2, ts2)]) := by
  constructor
  · have hts : ts ≠ [] := by
      rcases hwf with ⟨t, ht, _⟩
      exact List.ne_nil_of_mem ht
    have hmain : segment_sentence_by_endings s ts cb
        = some ((segLoopB s.length (ts'.zip (token_positions s ts')) false [] none none).map
            (fun e => (stripWS (sliceStr s e.1 e.2.1), e.2.2))) := by
      rw [segment_sentence_by_endings, if_neg (by simp [List.isEmpty_iff, hs, hts]), href]
      rfl
    refine ⟨_, hmain, fun hC => ?_⟩
    rw [List.map_eq_nil_iff] at hC
    have hwf' : ∃ t ∈ ts', 2 ≤ t.len :=
      exists_wf_of_forall₂ ts ts' (refineGo_wf cb s ts ts 0 ts' href) hwf
    have hzip : ∃ pt ∈ ts'.zip (token_positions s ts'), 2 ≤ pt.1.len :=
      exists_wf_zip ts' (token_positions s ts')
        (by rw [token_positions, token_positions_from_length]) hwf'
    exact segLoopB_ne_nil s.length _ false [] none none (Or.inr ⟨rfl, hzip⟩) hC
  · intro s2 ts2 h2
    rw [segment_sentence_by_endings, if_pos]
    rcases h2 with h2 | h2 <;> simp [h2]

/-- Witness for C3 on a one-token sentence. -/
theorem segment_nonempty_witness :
    (∃ segs, segment_sentence_by_endings ['가', '다'] [Token.t2 ['가', '다'] (str "VV")] none
      = some segs ∧ segs ≠ []) ∧ segment_sentence_by_endings [] [] none = some [([], [])] := by
  have h := segment_nonempty ['가', '다'] [Token.t2 ['가', '다'] (str "VV")] none
    [Token.t2 ['가', '다'] (str "VV")] (by decide)
    ⟨Token.t2 ['가', '다'] (str "VV"), by decide, by decide⟩ rfl
  exact ⟨h.1, h.2 [] [] (Or.inl rfl)⟩

/-! ## Claim C10: emitted segments carry only well-formed tokens, never a final EC -/

/-- `retagECF` keeps the field count. -/
theorem retagECF_len (t : Token) : (retagECF t).len = t.len := by
  cases t <;> rfl

/-- Members of the retagged buffer keep at least 2 fields. -/
theorem retagLastECF_wf (buf : List Token) (hw : ∀ t ∈ buf, 2 ≤ t.len) :
    ∀ t ∈ retagLastECF buf, 2 ≤ t.len := by
  intro t ht
  rw [retagLastECF] at ht
  cases hlast : buf.getLast? with
  | none => rw [hlast] at ht; exact hw t ht
  | some u =>
    rw [hlast] at ht
    dsimp only at ht
    by_cases hEC : u.tagD = str "EC"
    · rw [if_pos hEC] at ht
      rcases List.mem_append.mp ht with h1 | h2
      · exact hw t (List.dropLast_subset buf h1)
      · have hteq : t = retagECF u := by simpa using h2
        subst hteq
        rw [retagECF_len]
        obtain ⟨hne, heq⟩ := List.mem_getLast?_eq_getLast hlast
        exact heq ▸ hw _ (List.getLast_mem hne)
    · rw [if_neg hEC] at ht
      exact hw t ht

/-- Retagging an `EC` token yields an `ECF` tag. -/
theorem retagECF_tagD (u : Token) (h : u.tagD = str "EC") :
    (retagECF u).tagD = str "ECF" := by
  cases u with
  | t0 => simp [Token.tagD, Token.tag?, str] at h
  | t1 m => simp [Token.tagD, Token.tag?, str] at h
  | t2 m tg => rfl
  | t3 m tg p => rfl
  | t4 m tg p o => rfl

/-- The last token of the retagged buffer is never tagged `EC`. -/
theorem retagLastECF_last (buf : List Token) :
    ∀ tl, (retagLastECF buf).getLast? = some tl → tl.tagD ≠ str "EC" := by
  intro tl htl
  rw [retagLastECF] at htl
  cases hlast : buf.getLast? with
  | none =>
    rw [hlast] at htl
    dsimp only at htl
    rw [hlast] at htl
    cases htl
  | some u =>
    rw [hlast] at htl
    dsimp only at htl
    by_cases hEC : u.tagD = str "EC"
    · rw [if_pos hEC, List.getLast?_concat] at htl
      cases htl
      rw [retagECF_tagD u hEC]
      decide
    · rw [if_neg hEC, hlast] at htl
      cases htl
      exact hEC

/-- Triples emitted by `flushB` carry the retagged buffer. -/
theorem flushB_tokens (st : Option ℕ) (fe : ℕ) (buf : List Token) :
    ∀ e ∈ flushB st fe buf, e.2.2 = retagLastECF buf := by
  intro e he
  cases buf with
  | nil => simp [flushB] at he
  | cons b bs =>
    cases st with
    | none => simp [flushB] at he
    | some c =>
      simp only [flushB, List.mem_singleton] at he
      subst he
      rfl

/-- Every triple emitted by the segment loop carries only tokens with
at least 2 fields, and its token list never ends in an `EC` tag, as
long as the running buffer does the same. -/
theorem segLoopB_tokens_wf (slen : ℕ) :
    ∀ (l : List PTok) (ab : Bool) (buf : List Token) (st en : Option ℕ),
      (∀ t ∈ buf, 2 ≤ t.len) →
      ∀ e ∈ segLoopB slen l ab buf st en,
        (∀ t ∈ e.2.2, 2 ≤ t.len) ∧
        (∀ tl, e.2.2.getLast? = some tl → tl.tagD ≠ str "EC") := by
  intro l
  induction l with
  | nil =>
    intro ab buf st en hbuf e he
    rw [segLoopB] at he
    have htok := flushB_tokens st slen buf e he
    rw [htok]
    exact ⟨retagLastECF_wf buf hbuf, retagLastECF_last buf⟩
  | cons pt rest ih =>
    intro ab buf st en hbuf e he
    by_cases hw : pt.1.len < 2
    · rw [segLoopB, if_pos hw] at he
      exact ih ab buf st en hbuf e he
    · rw [segLoopB, if_neg hw] at he
      have hbuf1 : ∀ t ∈ buf ++ [pt.1], 2 ≤ t.len := by
        intro t ht
        rcases List.mem_append.mp ht with h1 | h2
        · exact hbuf t h1
        · rw [List.mem_singleton.mp h2]; omega
      by_cases hg : (ab && isSegGlue pt.1) = true
      · rw [if_pos hg] at he
        exact ih true (buf ++ [pt.1]) st _ hbuf1 e he
      · rw [if_neg hg] at he
        simp only at he
        rcases List.mem_append.mp he with hpre | hrec
        · by_cases hab : ab
          · rw [if_pos hab] at hpre
            have htok := flushB_tokens st (segBoundary en pt.2.1) buf e hpre
            rw [htok]
            exact ⟨retagLastECF_wf buf hbuf, retagLastECF_last buf⟩
          · rw [if_neg hab] at hpre
            cases hpre
        · refine ih _ ((if ab then [] else buf) ++ [pt.1]) _ _ ?_ e hrec
          intro t ht
          rcases List.mem_append.mp ht with h1 | h2
          · by_cases hab : ab
            · rw [if_pos hab] at h1; cases h1
            · rw [if_neg hab] at h1; exact hbuf t h1
          · rw [List.mem_singleton.mp h2]; omega

/-- C10: for a non-empty sentence and non-empty token list, every
token inside any emitted Clause Segment has at least 2 fields, and no
segment's token list ends in a token tagged `EC`. -/
theorem segment_tokens_wf (s : Str) (ts : List Token) (cb : Option Callback)
    (segs : List (Str × List Token))
    (hs : s ≠ []) (hts : ts ≠ [])
    (hseg : segment_sentence_by_endings s ts cb = some segs) :
    ∀ seg ∈ segs, (∀ t ∈ seg.2, 2 ≤ t.len) ∧
      (∀ tl, seg.2.getLast? = some tl → tl.tagD ≠ str "EC") := by
  intro seg hmem
  rw [segment_sentence_by_endings,
    if_neg (by simp [List.isEmpty_iff, hs, hts])] at hseg
  cases href : refine_tokens cb s ts with
  | none => rw [href] at hseg; cases hseg
  | some ts' =>
    rw [href, Option.map_some'] at hseg
    cases hseg
    obtain ⟨e, he, heq⟩ := List.mem_map.mp hmem
    have h := segLoopB_tokens_wf s.length (ts'.zip (token_positions s ts')) false [] none none
      (by intro t ht; cases ht) e he
    rw [← heq]
    exact h

/-- Witness for C10 on a one-clause sentence. -/
theorem segment_tokens_wf_witness :
    (∀ t ∈ [Token.t2 ['다'] (str "EF")], 2 ≤ t.len) ∧
    (∀ tl, [Token.t2 ['다'] (str "EF")].getLast? = some tl → tl.tagD ≠ str "EC") := by
  have h := segment_tokens_wf ['다'] [Token.t2 ['다'] (str "EF")] none
    [(['다'], [Token.t2 ['다'] (str "EF")])] (by decide) (by decide) rfl
  exact h (['다'], [Token.t2 ['다'] (str "EF")]) (by decide)

/-! ## Claim C1: coverage -/

/-- Without the fallback search, the position mapper yields ordered
spans inside the sentence: located tokens advance the cursor, and
unlocatable or empty-surface tokens fold in as zero-width spans at the
cursor. -/
theorem noFallback_posOrd (s : Str) :
    ∀ (ts : List Token) (c : ℕ), noFallback s c ts = true → c ≤ s.length →
      posOrd s.length c (ts.zip (token_positions_from s c ts)) = true := by
  intro ts
  induction ts with
  | nil => intro c _ _; rfl
  | cons t rest ih =>
    intro c hnf hcs
    rw [noFallback] at hnf
    by_cases hm : t.morph = []
    · rw [if_pos hm] at hnf
      rw [token_positions_from, if_pos hm, List.zip_cons_cons, posOrd]
      simp only [Bool.and_eq_true, decide_eq_true_eq]
      exact ⟨⟨⟨le_refl c, le_refl c⟩, hcs⟩, ih c hnf hcs⟩
    · rw [if_neg hm] at hnf
      cases hf : findFrom s t.morph c with
      | some i =>
        rw [hf] at hnf
        rw [token_positions_from, if_neg hm, hf, List.zip_cons_cons, posOrd]
        simp only [Bool.and_eq_true, decide_eq_true_eq]
        have hle := findFrom_le_length hf
        exact ⟨⟨⟨findFrom_start_le hf, by omega⟩, hle⟩, ih _ hnf (by omega)⟩
      | none =>
        rw [hf] at hnf
        cases hf0 : findFrom s t.morph 0 with
        | some j => rw [hf0] at hnf; cases hnf
        | none =>
          rw [hf0] at hnf
          rw [token_positions_from, if_neg hm, hf, hf0, List.zip_cons_cons, posOrd]
          simp only [Bool.and_eq_true, decide_eq_true_eq]
          exact ⟨⟨⟨le_refl c, le_refl c⟩, hcs⟩, ih c hnf hcs⟩

/-- A tiled boundary list starts at or before its final bound. -/
theorem chainB_le : ∀ (L : List (ℕ × ℕ × List Token)) (c last : ℕ),
    chainB c last L = true → c ≤ last := by
  intro L
  induction L with
  | nil =>
    intro c last h
    rw [chainB, decide_eq_true_eq] at h
    omega
  | cons e r ih =>
    intro c last h
    obtain ⟨a, b, tk⟩ := e
    rw [chainB] at h
    simp only [Bool.and_eq_true, decide_eq_true_eq] at h
    obtain ⟨⟨hac, hab⟩, hr⟩ := h
    have := ih b last hr
    omega

/-- Adjacent slices concatenate. -/
theorem sliceStr_append (s : Str) (a b c : ℕ) (h1 : a ≤ b) (h2 : b ≤ c) :
    sliceStr s a b ++ sliceStr s b c = sliceStr s a c := by
  have hu : s.take b = (s.take c).take b := by
    rw [List.take_take, Nat.min_eq_left h2]
  rw [sliceStr, sliceStr, sliceStr, hu]
  conv_rhs => rw [← List.take_append_drop b (s.take c)]
  rw [List.drop_append_eq_append_drop]
  congr 1
  by_cases hab : a ≤ ((s.take c).take b).length
  · rw [Nat.sub_eq_zero_of_le hab, List.drop_zero]
  · have hlen : ((s.take c).take b).length = min b (s.take c).length := List.length_take b _
    have hub : (s.take c).length < a := by
      rcases Nat.le_total b (s.take c).length with hc | hc
      · omega
      · omega
    rw [List.drop_eq_nil_of_le (by omega)]
    simp

/-- Tiled boundary triples cover the interval: the concatenation of the
raw slices is the slice from the start of the chain to the end of the
sentence. -/
theorem chainB_flatten (s : Str) :
    ∀ (L : List (ℕ × ℕ × List Token)) (c : ℕ), chainB c s.length L = true →
      (L.map (fun e => sliceStr s e.1 e.2.1)).flatten = sliceStr s c s.length := by
  intro L
  induction L with
  | nil =>
    intro c h
    rw [chainB, decide_eq_true_eq] at h
    subst h
    rw [List.map_nil, List.flatten_nil, sliceStr, List.take_length, List.drop_length]
  | cons e r ih =>
    intro c h
    obtain ⟨a, b, tk⟩ := e
    rw [chainB] at h
    simp only [Bool.and_eq_true, decide_eq_true_eq] at h
    obtain ⟨⟨hac, hab⟩, hr⟩ := h
    subst hac
    rw [List.map_cons, List.flatten_cons, ih b hr]
    exact sliceStr_append s a b s.length hab (chainB_le r b s.length hr)

/-- The boundary triples of the segment loop tile the sentence from the
running segment start to the sentence length, for ordered positions
(zero-width spans included). -/
theorem segLoopB_chainB (slen : ℕ) :
    ∀ (l : List PTok) (ab : Bool) (buf : List Token) (c e : ℕ) (en : Option ℕ),
      posOrd slen e l = true → e ≤ slen → c ≤ e → buf ≠ [] →
      (∀ v, en = some v → v ≤ e) →
      chainB c slen (segLoopB slen l ab buf (some c) en) = true := by
  intro l
  induction l with
  | nil =>
    intro ab buf c e en _ hes hce hbuf _
    rw [segLoopB]
    cases buf with
    | nil => exact absurd rfl hbuf
    | cons b bs =>
      rw [flushB]
      simp only [chainB, Bool.and_eq_true, decide_eq_true_eq]
      refine ⟨⟨trivial, ?_⟩, trivial⟩
      omega
  | cons pt rest ih =>
    intro ab buf c e en hord hes hce hbuf hen
    obtain ⟨t1, a1, b1⟩ := pt
    rw [posOrd] at hord
    simp only [Bool.and_eq_true, decide_eq_true_eq] at hord
    obtain ⟨⟨⟨hea, hab1⟩, hbs⟩, hrest⟩ := hord
    by_cases hw : (t1, a1, b1).1.len < 2
    · rw [segLoopB, if_pos hw]
      exact ih ab buf c b1 en hrest hbs (by omega) hbuf (fun v hv => by
        have := hen v hv; omega)
    · rw [segLoopB, if_neg hw]
      by_cases hg : (ab && isSegGlue (t1, a1, b1).1) = true
      · rw [if_pos hg]
        refine ih true (buf ++ [(t1, a1, b1).1]) c b1 _ hrest hbs (by omega) (by simp) ?_
        intro v hv
        by_cases hlt : a1 < b1
        · rw [if_pos hlt] at hv
          dsimp only at hv
          cases hv
          omega
        · rw [if_neg hlt] at hv
          have := hen v hv
          omega
      · rw [if_neg hg]
        by_cases hA : ab
        · subst hA
          have hbd : segBoundary en a1 = a1 := by
            cases en with
            | none => rfl
            | some v =>
              have := hen v rfl
              rw [segBoundary, if_pos (by omega)]
          cases buf with
          | nil => exact absurd rfl hbuf
          | cons x xs =>
            simp only [if_pos rfl, flushB, List.singleton_append, Option.getD_none,
              List.nil_append, hbd]
            simp only [chainB, Bool.and_eq_true, decide_eq_true_eq]
            refine ⟨⟨trivial, by omega⟩, ?_⟩
            exact ih (decide ((t1, a1, b1).1.tagD ∈ splitEndingTags)) [(t1, a1, b1).1] a1 b1
              (if a1 < b1 then some b1 else none) hrest hbs (by omega) (by simp)
              (fun v hv => by
                by_cases hlt : a1 < b1
                · rw [if_pos hlt] at hv; cases hv; omega
                · rw [if_neg hlt] at hv; cases hv)
        · simp only [Bool.not_eq_true] at hA
          subst hA
          simp only [Bool.false_eq_true, if_false, List.nil_append]
          have hrec := ih (decide ((t1, a1, b1).1.tagD ∈ splitEndingTags))
            (buf ++ [(t1, a1, b1).1]) c b1
            (if a1 < b1 then some b1 else en) hrest hbs (by omega) (by simp) (fun v hv => by
              by_cases hlt : a1 < b1
              · rw [if_pos hlt] at hv; cases hv; omega
              · rw [if_neg hlt] at hv; have := hen v hv; omega)
          simpa using hrec

/-- C1 (counterexample): a token located before the cursor's span makes
the emitted segments duplicate characters: for `"ab"` with tokens
`[('b','EF'), ('a','NN')]` the segments are `"b"` and `"ab"` — their
concatenation repeats `b` and does not reproduce the sentence up to
whitespace normalization (the non-whitespace characters already
differ). -/
theorem segment_coverage_cex :
    segment_sentence_by_endings ['a', 'b'] [Token.t2 ['b'] (str "EF"),
        Token.t2 ['a'] (str "NN")] none
      = some [(['b'], [Token.t2 ['b'] (str "EF")]), (['a', 'b'], [Token.t2 ['a'] (str "NN")])] ∧
    (['b'] ++ [' '] ++ ['a', 'b']).filter (fun ch => !isWSChar ch)
      ≠ (['a', 'b'] : Str).filter (fun ch => !isWSChar ch) := by
  refine ⟨rfl, by decide⟩
/-- From an empty buffer in the outer walk, with a well-formed first
token, the boundary triples chain from that token's recorded start
offset. -/
theorem segLoopB_chainB_start (slen : ℕ) (l : List PTok) (e : ℕ)
    (hord : posOrd slen e l = true) (_hes : e ≤ slen)
    (hhd : ∀ q ∈ l.head?, ¬ q.1.len < 2) :
    chainB (nextStart slen l) slen (segLoopB slen l false [] none none) = true := by
  cases l with
  | nil =>
    simp [segLoopB, flushB, nextStart, chainB]
  | cons pt rest =>
    obtain ⟨t1, a1, b1⟩ := pt
    have hw : ¬ (t1, a1, b1).1.len < 2 := hhd _ (by simp)
    rw [posOrd] at hord
    simp only [Bool.and_eq_true, decide_eq_true_eq] at hord
    obtain ⟨⟨⟨hea, hab1⟩, hbs⟩, hrest⟩ := hord
    rw [segLoopB, if_neg hw]
    simp only [Bool.false_and, Bool.false_eq_true, if_false, List.nil_append,
      Option.getD_none]
    dsimp only
    exact segLoopB_chainB slen rest _ [t1] a1 b1 _ hrest hbs hab1 (by simp)
      (fun v hv => by
        by_cases hlt : a1 < b1
        · rw [if_pos hlt] at hv; cases hv; omega
        · rw [if_neg hlt] at hv; cases hv)

/-- C1 (amended): when every refined token's surface is located at or
after the running cursor or not located at all (the fallback search
from the beginning never fires; unlocatable and empty surfaces fold in
as zero-width positions at the cursor), and the first token is
well-formed, the boundary triples produced by the segment loop tile
the sentence exactly from the first token's recorded start offset to
the sentence length: each segment's raw slice begins where the
previous one ended, and the concatenation of the raw slices is the
sentence text from that start offset to its end.  Each emitted text is
that raw slice stripped of surrounding whitespace. -/
theorem segment_coverage (s : Str) (ts : List Token) (cb : Option Callback)
    (ts' : List Token) (u : Token) (tr : List Token)
    (hs : s ≠ [])
    (href : refine_tokens cb s ts = some ts')
    (hcons : ts' = u :: tr) (hwfu : ¬ u.len < 2)
    (hal : noFallback s 0 ts' = true) :
    segment_sentence_by_endings s ts cb
      = some ((segLoopB s.length (ts'.zip (token_positions s ts')) false [] none none).map
          (fun e => (stripWS (sliceStr s e.1 e.2.1), e.2.2))) ∧
    chainB (nextStart s.length (ts'.zip (token_positions s ts'))) s.length
      (segLoopB s.length (ts'.zip (token_positions s ts')) false [] none none) = true ∧
    ((segLoopB s.length (ts'.zip (token_positions s ts')) false [] none none).map
        (fun e => sliceStr s e.1 e.2.1)).flatten
      = sliceStr s (nextStart s.length (ts'.zip (token_positions s ts'))) s.length := by
  subst hcons
  have hts : ts ≠ [] := by
    have hf2 := refineGo_wf cb s ts ts 0 (u :: tr) href
    have hlen := hf2.length_eq
    intro hnil
    rw [hnil] at hlen
    simp at hlen
  have hmain : segment_sentence_by_endings s ts cb
      = some ((segLoopB s.length ((u :: tr).zip (token_positions s (u :: tr))) false [] none
          none).map (fun e => (stripWS (sliceStr s e.1 e.2.1), e.2.2))) := by
    rw [segment_sentence_by_endings, if_neg (by simp [List.isEmpty_iff, hs, hts]), href]
    rfl
  have hord : posOrd s.length 0 ((u :: tr).zip (token_positions s (u :: tr))) = true :=
    noFallback_posOrd s (u :: tr) 0 hal (Nat.zero_le _)
  have hhd : ∀ q ∈ ((u :: tr).zip (token_positions s (u :: tr))).head?, ¬ q.1.len < 2 := by
    cases hp : token_positions s (u :: tr) with
    | nil =>
      exfalso
      have hlen := token_positions_from_length s 0 (u :: tr)
      rw [token_positions] at hp
      rw [hp] at hlen
      simp at hlen
    | cons p ps =>
      rw [List.zip_cons_cons]
      intro q hq
      simp only [List.head?_cons, Option.mem_def, Option.some.injEq] at hq
      subst hq
      exact hwfu
  have hchain := segLoopB_chainB_start s.length ((u :: tr).zip (token_positions s (u :: tr)))
    0 hord (Nat.zero_le _) hhd
  exact ⟨hmain, hchain, chainB_flatten s _ _ hchain⟩

/-- Witness for C1 on a sentence with an aligned clause, an unlocatable
zero-width token, and a trailing clause. -/
theorem segment_coverage_witness :
    noFallback ['a', 'b', ' ', 'c', 'd'] 0
        [Token.t2 ['a', 'b'] (str "EF"), Token.t2 ['z', 'z'] (str "XX"),
          Token.t2 ['c', 'd'] (str "NN")] = true ∧
    chainB (nextStart (['a', 'b', ' ', 'c', 'd'] : Str).length
        ([Token.t2 ['a', 'b'] (str "EF"), Token.t2 ['z', 'z'] (str "XX"),
            Token.t2 ['c', 'd'] (str "NN")].zip
          (token_positions ['a', 'b', ' ', 'c', 'd']
            [Token.t2 ['a', 'b'] (str "EF"), Token.t2 ['z', 'z'] (str "XX"),
              Token.t2 ['c', 'd'] (str "NN")])))
      (['a', 'b', ' ', 'c', 'd'] : Str).length
      (segLoopB (['a', 'b', ' ', 'c', 'd'] : Str).length
        ([Token.t2 ['a', 'b'] (str "EF"), Token.t2 ['z', 'z'] (str "XX"),
            Token.t2 ['c', 'd'] (str "NN")].zip
          (token_positions ['a', 'b', ' ', 'c', 'd']
            [Token.t2 ['a', 'b'] (str "EF"), Token.t2 ['z', 'z'] (str "XX"),
              Token.t2 ['c', 'd'] (str "NN")]))
        false [] none none) = true := by
  refine ⟨by decide, ?_⟩
  exact (segment_coverage ['a', 'b', ' ', 'c', 'd']
    [Token.t2 ['a', 'b'] (str "EF"), Token.t2 ['z', 'z'] (str "XX"),
      Token.t2 ['c', 'd'] (str "NN")] none
    [Token.t2 ['a', 'b'] (str "EF"), Token.t2 ['z', 'z'] (str "XX"),
      Token.t2 ['c', 'd'] (str "NN")]
    (Token.t2 ['a', 'b'] (str "EF"))
    [Token.t2 ['z', 'z'] (str "XX"), Token.t2 ['c', 'd'] (str "NN")]
    (by decide) rfl rfl (by decide) (by decide)).2.1
